import Mathlib

/-!
Verification development for the markdown parser utilities of this repository
(`packages/markdown/src/node/parser/utils.ts`): the header-tree builder
`resolveHeadersFromTokens`, the title extractor `resolveTitleFromToken`, the
slug generator `slugify` and the bundler-constant guard
`preventViteConstantsReplacement`.

Strings are modelled as Lean `String` (sequences of Unicode scalars); the
mutable JavaScript arrays become functional state passing.  The one aliasing
device of the source — the `stack` of the header-tree builder holds references
into the tree under construction and mutates `stack[0].children` in place —
is embedded as a zipper: stack entries carry the children accumulated so far
and are attached to their parent (or to the top-level result) at the moment
they are popped, which yields the same final tree as the in-place mutation.
-/

/-! ### JavaScript primitives used by the source -/

/-- The code points matched by `\s` in a JavaScript regular expression
(WhiteSpace and LineTerminator), which is also the set trimmed by
`String.prototype.trim`. -/
def jsWhitespaceCodes : List Nat :=
  [0x9, 0xA, 0xB, 0xC, 0xD, 0x20, 0xA0, 0x1680,
   0x2000, 0x2001, 0x2002, 0x2003, 0x2004, 0x2005, 0x2006, 0x2007,
   0x2008, 0x2009, 0x200A, 0x2028, 0x2029, 0x202F, 0x205F, 0x3000, 0xFEFF]

def isJsSpace (c : Char) : Bool := jsWhitespaceCodes.contains c.toNat

/-- Model of `String.prototype.trim`. -/
def jsTrim (s : String) : String :=
  String.mk (((s.data.dropWhile isJsSpace).reverse.dropWhile isJsSpace).reverse)

/-- Model of `Number.parseInt(s, 10)`: skip leading whitespace, read an
optional sign and then the longest run of decimal digits; `none` models `NaN`
(no digits found).  Used for `Number.parseInt(token.tag.slice(1), 10)`. -/
def jsParseInt (s : String) : Option Int :=
  let cs := s.data.dropWhile isJsSpace
  let signAndRest : Bool × List Char :=
    match cs with
    | c :: rest =>
      if c.toNat = 0x2D then (true, rest)        -- '-'
      else if c.toNat = 0x2B then (false, rest)  -- '+'
      else (false, cs)
    | [] => (false, [])
  let ds := signAndRest.2.takeWhile Char.isDigit
  if ds.isEmpty then none
  else
    let n : Nat := ds.foldl (fun acc c => acc * 10 + (c.toNat - 0x30)) 0
    some (if signAndRest.1 then -(n : Int) else (n : Int))

/-- Modelled from the spec: `htmlEscape` is imported from `@vitebook/core/node`,
whose source is not under `src/`.  The spec (§4.2) requires escaping "at
minimum the characters `&`, `<`, `>`, `\"`"; we model the conventional HTML
entity map over those four characters together with the single quote.  The
per-character map agrees with the usual chain of global string replacements
because no replacement text contains a character escaped by a later step. -/
def htmlEscapeChar (c : Char) : String :=
  if c.toNat = 0x26 then "&amp;"        -- '&'
  else if c.toNat = 0x3C then "&lt;"    -- '<'
  else if c.toNat = 0x3E then "&gt;"    -- '>'
  else if c.toNat = 0x22 then "&quot;"  -- '"'
  else if c.toNat = 0x27 then "&#39;"   -- single quote
  else String.mk [c]

def htmlEscape (s : String) : String :=
  String.join (s.data.map htmlEscapeChar)

/-! ### Token model (`markdown-it` input, read-only) -/

/-- Model of a `markdown-it` inline child token: exactly the fields read by
`resolveTitleFromToken` (`item.type`, `item.content`, and the truthiness of
`item.meta?.isPermalinkSymbol`). -/
structure ChildToken where
  type : String
  content : String
  isPermalinkSymbol : Bool

/-- Model of a `markdown-it` token: exactly the fields read by
`resolveHeadersFromTokens`.  `idAttr` models `token.attrGet('id')`, with
`none` for a null result (attribute absent); `children` models the nullable
`token.children` array. -/
structure Token where
  type : String
  tag : String
  idAttr : Option String
  children : Option (List ChildToken)

/-! ### Output model (`MarkdownHeader` from `../../shared`) -/

inductive MarkdownHeader where
  | mk (level : Int) (title : String) (slug : String)
       (children : List MarkdownHeader)

def MarkdownHeader.level : MarkdownHeader → Int
  | .mk l _ _ _ => l

def MarkdownHeader.title : MarkdownHeader → String
  | .mk _ t _ _ => t

def MarkdownHeader.slug : MarkdownHeader → String
  | .mk _ _ s _ => s

def MarkdownHeader.children : MarkdownHeader → List MarkdownHeader
  | .mk _ _ _ cs => cs

/-- Functional rendering of `h.children.push(c)` on a header value. -/
def appendChild (h : MarkdownHeader) (c : MarkdownHeader) : MarkdownHeader :=
  .mk h.level h.title h.slug (h.children ++ [c])

/-- The scalar fields of a header (everything except the children). -/
def headerKey (h : MarkdownHeader) : Int × String × String :=
  (h.level, h.title, h.slug)

/-! ### `resolveTitleFromToken` (source lines 96-139) -/

/-- Embedding of `resolveTitleFromToken`.  The source's nested
`if (escapeText) { if (code_inline or text) ... }` with fall-through to the
raw-content return is rendered as a single conditional. -/
def resolveTitleFromToken (token : Token) (allowHtml : Bool)
    (escapeText : Bool) : String :=
  -- const children = token.children ?? [];
  let children := token.children.getD []
  -- const titleTokenTypes = ['text', 'emoji', 'code_inline'];
  -- if (allowHtml) titleTokenTypes.push('html_inline');
  let titleTokenTypes :=
    ["text", "emoji", "code_inline"] ++ (if allowHtml then ["html_inline"] else [])
  -- children.filter(item => included type and not a permalink symbol)
  let titleTokens := children.filter (fun item =>
    titleTokenTypes.contains item.type && !item.isPermalinkSymbol)
  -- titleTokens.reduce(..., '').trim()
  jsTrim (titleTokens.foldl (fun result item =>
    if escapeText && (item.type == "code_inline" || item.type == "text") then
      result ++ htmlEscape item.content
    else
      result ++ item.content) "")

/-! ### The header-tree stack (source lines 25-43)

The source mutates `stack[0].children` in place; entries of our stack carry
their children accumulated so far and are attached to the parent (or to the
top-level `headers` list) when popped, producing the same final tree. -/

/-- One step of the `while` loop of `push` (source lines 32-34): `top` is the
current `stack[0]`, the list argument is the rest of the stack.  While
`header.level <= stack[0].level`, `stack.shift()` pops the front entry, which
is attached to the next entry's children (deferred rendering of the earlier
`stack[0].children.push`), or to the top-level `headers` when it was the last
open header. -/
def closeAux (lvl : Int) (headers : List MarkdownHeader)
    (top : MarkdownHeader) : List MarkdownHeader →
    List MarkdownHeader × List MarkdownHeader
  | [] =>
    if lvl ≤ top.level then (headers ++ [top], []) else (headers, [top])
  | p :: ps =>
    if lvl ≤ top.level then closeAux lvl headers (appendChild p top) ps
    else (headers, top :: p :: ps)

/-- The `while` loop of `push`, on a possibly empty stack. -/
def closeWhile (lvl : Int) (headers : List MarkdownHeader) :
    List MarkdownHeader → List MarkdownHeader × List MarkdownHeader
  | [] => (headers, [])
  | top :: rest => closeAux lvl headers top rest

/-- Embedding of `push` (source lines 31-43).  After the `while` loop the
source either appends the header to `headers` and pushes it on the stack, or
appends it to `stack[0].children` and unshifts it; in the zipper rendering
both cases amount to placing the new header at the front of the stack (its
attachment point is decided when it is later popped). -/
def pushHeader (header : MarkdownHeader)
    (st : List MarkdownHeader × List MarkdownHeader) :
    List MarkdownHeader × List MarkdownHeader :=
  let closed := closeWhile header.level st.1 st.2
  (closed.1, header :: closed.2)

/-- Attach every remaining open header at the end of the walk: renders the
fact that in the source those headers were already aliased into the tree. -/
def collapseAux (headers : List MarkdownHeader) (top : MarkdownHeader) :
    List MarkdownHeader → List MarkdownHeader
  | [] => headers ++ [top]
  | p :: ps => collapseAux headers (appendChild p top) ps

def collapse (headers : List MarkdownHeader) :
    List MarkdownHeader → List MarkdownHeader
  | [] => headers
  | top :: rest => collapseAux headers top rest

/-! ### `resolveHeadersFromTokens` (source lines 9-90) -/

/-- The options object of `resolveHeadersFromTokens`. -/
structure ResolveOptions where
  level : List Int
  allowHtml : Bool
  escapeText : Bool
  slugify : String → String
  format : Option (String → String)

/-- Construction of the header pushed at source lines 69-86, for a captured
`heading_open` token with parsed level `headerLevel` and content token
`nextToken`. -/
def mkHeader (opts : ResolveOptions) (token : Token) (headerLevel : Int)
    (nextToken : Token) : MarkdownHeader :=
  let title := resolveTitleFromToken nextToken opts.allowHtml opts.escapeText
  -- const slug = token.attrGet('id') ?? slugify(title);
  let slug :=
    match token.idAttr with
    | some v => v
    | none => opts.slugify title
  -- title: isFunction(format) ? format(title) : title
  .mk headerLevel
    (match opts.format with
     | some f => f title
     | none => title)
    slug []

/-- The body of the `tokens.forEach` callback (source lines 45-87) up to the
decision whether a header is pushed: `none` when the token is skipped.
`nextToken?` is `tokens[idx + 1]`. -/
def captureOne (opts : ResolveOptions) (token : Token)
    (nextToken? : Option Token) : Option MarkdownHeader :=
  -- if (token?.type !== 'heading_open') return;
  if token.type ≠ "heading_open" then none
  else
    -- const headerLevel = Number.parseInt(token.tag.slice(1), 10);
    match jsParseInt (token.tag.drop 1) with
    | none => none  -- level.includes(NaN) is false, so the heading is skipped
    | some headerLevel =>
      -- if (!level.includes(headerLevel)) return;
      if headerLevel ∈ opts.level then
        -- const nextToken = tokens[idx + 1]; if (!nextToken) return;
        match nextToken? with
        | none => none
        | some nextToken => some (mkHeader opts token headerLevel nextToken)
      else none

/-- One `forEach` iteration acting on the `(headers, stack)` state. -/
def stepToken (opts : ResolveOptions) (token : Token)
    (nextToken? : Option Token)
    (st : List MarkdownHeader × List MarkdownHeader) :
    List MarkdownHeader × List MarkdownHeader :=
  match captureOne opts token nextToken? with
  | some h => pushHeader h st
  | none => st

/-- The `tokens.forEach` walk; the head of the remaining list is the current
token and its tail's head is `tokens[idx + 1]`. -/
def resolveAux (opts : ResolveOptions) :
    List Token → List MarkdownHeader × List MarkdownHeader →
    List MarkdownHeader × List MarkdownHeader
  | [], st => st
  | t :: rest, st => resolveAux opts rest (stepToken opts t rest.head? st)

/-- Embedding of `resolveHeadersFromTokens`. -/
def resolveHeadersFromTokens (tokens : List Token) (opts : ResolveOptions) :
    List MarkdownHeader :=
  let st := resolveAux opts tokens ([], [])
  collapse st.1 st.2

/-- The headers captured by the walk, in document (token) order, each as
constructed at source lines 81-86 (children still empty). -/
def capturedHeaders (opts : ResolveOptions) : List Token → List MarkdownHeader
  | [] => []
  | t :: rest =>
    match captureOne opts t rest.head? with
    | some h => h :: capturedHeaders opts rest
    | none => capturedHeaders opts rest

/-! ### `slugify` (source lines 141-162) -/

/-- Characters matched by `rControl` = `/[\u0000-\u001f]/`. -/
def isControlChar (c : Char) : Bool := c.toNat ≤ 0x1F

/-- Characters matched by `rCombining` = `/[̀-ͯ]/`. -/
def isCombining (c : Char) : Bool := 0x300 ≤ c.toNat && c.toNat ≤ 0x36F

/-- The explicit code points of the `rSpecial` class, in the order they are
written in the source regex: tilde, backtick, `!`, `@`, `#`, `$`, `%`, `^`,
`&`, `*`, `(`, `)`, hyphen, underscore, `+`, `=`, `[`, `]`, both braces,
`|`, backslash, `;`, `:`, straight double and single quote, left and right
curly double quote (U+201C, U+201D), left and right curly single quote
(U+2018, U+2019), `<`, `>`, comma, period, `?`, `/`. -/
def rSpecialCodes : List Nat :=
  [0x7E, 0x60, 0x21, 0x40, 0x23, 0x24, 0x25, 0x5E, 0x26, 0x2A, 0x28, 0x29,
   0x2D, 0x5F, 0x2B, 0x3D, 0x5B, 0x5D, 0x7B, 0x7D, 0x7C, 0x5C, 0x3B, 0x3A,
   0x22, 0x27, 0x201C, 0x201D, 0x2018, 0x2019, 0x3C, 0x3E, 0x2C, 0x2E,
   0x3F, 0x2F]

/-- `rSpecial` = `/[\s~` backtick `!@#$%^&*()\-_+=[\]{}|\;:"'“”‘’<>,.?/]+/`:
whitespace or one of the listed code points. -/
def isRSpecial (c : Char) : Bool :=
  isJsSpace c || rSpecialCodes.contains c.toNat

/-- Replace each maximal run of characters satisfying `p` by the single
character `sep`: the effect of `s.replace(/[class]+/g, '-')`.  `inRun`
records whether the previous character belonged to the class. -/
def collapseRunsAux (p : Char → Bool) (sep : Char) :
    Bool → List Char → List Char
  | _, [] => []
  | inRun, c :: cs =>
    if p c then
      (if inRun then [] else [sep]) ++ collapseRunsAux p sep true cs
    else c :: collapseRunsAux p sep false cs

def replaceRuns (p : Char → Bool) (sep : Char) (s : String) : String :=
  String.mk (collapseRunsAux p sep false s.data)

/-- Model of the JavaScript built-in `str.normalize('NFKD')`, restricted to
the code points exercised in this development: LATIN SMALL LETTER E WITH
ACUTE (U+00E9) and LATIN SMALL LETTER A WITH GRAVE (U+00E0) carry the
decompositions fixed by the Unicode standard (base letter followed by the
combining accent); every other character reaching it here (ASCII, the em
dash U+2014, curly quotes) has no compatibility decomposition and is
returned unchanged. -/
def nfkdChar (c : Char) : List Char :=
  if c.toNat = 0xE9 then [Char.ofNat 0x65, Char.ofNat 0x301]
  else if c.toNat = 0xE0 then [Char.ofNat 0x61, Char.ofNat 0x300]
  else [c]

def nfkd (s : String) : String := String.mk (s.data.flatMap nfkdChar)

/-- `.replace(rCombining, '')`. -/
def removeCombining (s : String) : String :=
  String.mk (s.data.filter (fun c => !isCombining c))

/-- `.replace(rControl, '')`. -/
def removeControl (s : String) : String :=
  String.mk (s.data.filter (fun c => !isControlChar c))

/-- The replace of the regex matching a run of two or more hyphens (written
hyphen, brace, `2,`, brace in the source) with a single hyphen; collapsing
every maximal hyphen run (length-one runs map to themselves) is
extensionally the same operation. -/
def collapseHyphens (s : String) : String :=
  replaceRuns (fun c => c.toNat == 0x2D) (Char.ofNat 0x2D) s

/-- `.replace(/^-+|-+$/g, '')`: drop the leading and the trailing hyphen
run. -/
def trimHyphens (s : String) : String :=
  String.mk (((s.data.dropWhile (fun c => c.toNat == 0x2D)).reverse.dropWhile
    (fun c => c.toNat == 0x2D)).reverse)

/-- `.replace(/^(\d)/, '_$1')`: prefix an underscore when the first
character is an ASCII digit. -/
def underscoreDigit (s : String) : String :=
  match s.data with
  | c :: _ => if c.isDigit then "_" ++ s else s
  | [] => s

/-- Model of `.toLowerCase()`; ASCII case mapping, which is all the
lowercasing exercised by the inputs considered here. -/
def jsToLowerCase (s : String) : String :=
  String.mk (s.data.map Char.toLower)

/-- Embedding of `slugify`: the chained replacements of source lines
146-162, applied innermost first. -/
def slugify (str : String) : String :=
  jsToLowerCase (underscoreDigit (trimHyphens (collapseHyphens
    (replaceRuns isRSpecial (Char.ofNat 0x2D)
      (removeControl (removeCombining (nfkd str)))))))

/-! ### Spec-side renderings of `slugify` (spec §4.3) -/

/-- The special characters listed by the spec's step 4, in its order:
`~!@#$%^&*()-_+=[]{}|\;:` then straight double quote, straight single
quote, a second straight double quote, curly single quotes U+2018/U+2019,
then `<>,.?/`.  The backticks delimiting the class in the spec are markdown
code-span delimiters, not members.  Unlike the code's `rSpecial` class this
list has no backtick and no curly double quotes U+201C/U+201D. -/
def specListedCodes : List Nat :=
  [0x7E, 0x21, 0x40, 0x23, 0x24, 0x25, 0x5E, 0x26, 0x2A, 0x28, 0x29,
   0x2D, 0x5F, 0x2B, 0x3D, 0x5B, 0x5D, 0x7B, 0x7D, 0x7C, 0x5C, 0x3B, 0x3A,
   0x22, 0x27, 0x22, 0x2018, 0x2019, 0x3C, 0x3E, 0x2C, 0x2E, 0x3F, 0x2F]

def isSpecListedSpecial (c : Char) : Bool :=
  isJsSpace c || specListedCodes.contains c.toNat

/-- The eight steps of spec §4.3 with the step-4 character class exactly as
the spec lists it. -/
def slugifySpecListed (str : String) : String :=
  jsToLowerCase (underscoreDigit (trimHyphens (collapseHyphens
    (replaceRuns isSpecListedSpecial (Char.ofNat 0x2D)
      (removeControl (removeCombining (nfkd str)))))))

/-- The eight steps of spec §4.3 with the step-4 class amended to the code's
`rSpecial` class (the listed class plus backtick and the curly double
quotes). -/
def slugifySpecAmended (str : String) : String :=
  jsToLowerCase (underscoreDigit (trimHyphens (collapseHyphens
    (replaceRuns isRSpecial (Char.ofNat 0x2D)
      (removeControl (removeCombining (nfkd str)))))))

/-! ### `preventViteConstantsReplacement` (source lines 170-191) -/

/-- JavaScript regex word characters (`\w`, and the classification used by
`\b`): ASCII letters, digits and underscore. -/
def isWordChar (c : Char) : Bool :=
  (0x41 ≤ c.toNat && c.toNat ≤ 0x5A) || (0x61 ≤ c.toNat && c.toNat ≤ 0x7A) ||
  (0x30 ≤ c.toNat && c.toNat ≤ 0x39) || c.toNat == 0x5F

/-- Whether the first list is a prefix of the second. -/
def beginsWith : List Char → List Char → Bool
  | [], _ => true
  | _ :: _, [] => false
  | p :: ps, c :: cs => p == c && beginsWith ps cs

/-- One global pass of `source.replace(/\bPAT/g, REPL)` for a nonempty
literal pattern `pat`: at every position preceded by a word boundary, a
matching occurrence of `pat` is replaced by `repl` and scanning resumes
after the occurrence.  `prevW` tells whether the previous character of the
source is a word character (`false` at the start of the string); `lastW` is
that classification for the last character of `pat`, used to resume after a
replacement.  `fuel` at least the input length makes the recursion
structural; it never runs out for the callers below. -/
def replaceBoundaryAux (pat repl : List Char) (lastW : Bool) :
    Nat → Bool → List Char → List Char
  | 0, _, rest => rest
  | _ + 1, _, [] => []
  | fuel + 1, prevW, c :: cs =>
    if (prevW != isWordChar c) && beginsWith pat (c :: cs) then
      repl ++ replaceBoundaryAux pat repl lastW fuel lastW
        ((c :: cs).drop pat.length)
    else c :: replaceBoundaryAux pat repl lastW fuel (isWordChar c) cs

def replaceBoundaryLiteral (pat repl source : String) : String :=
  let lastW := match pat.data.getLast? with
    | some c => isWordChar c
    | none => false
  String.mk (replaceBoundaryAux pat.data repl.data lastW
    (source.data.length + 1) false source.data)

/-- The alternatives of the regex built at source lines 180-185:
`Object.keys(define)` joined with `|` inside one group.  Joining the empty
key list produces the empty pattern — a single, always-matching empty
alternative.  Keys are regex-escaped by the source before joining, so each
alternative matches itself literally, which is what direct list matching
models. -/
def defineAlternatives (keys : List String) : List (List Char) :=
  if keys.isEmpty then [[]] else keys.map String.data

/-- First alternative matching at the current position (regex alternation is
first-match, in key order). -/
def firstAlt (alts : List (List Char)) (cs : List Char) :
    Option (List Char) :=
  alts.find? (fun a => beginsWith a cs)

/-- The replacement callback `(_) => _[0] + '<wbr/>' + _.slice(1)` applied
to a matched alternative: a marker after the first character for a nonempty
match; for the empty match `_[0]` is `undefined`, which the template literal
stringifies to the text `undefined`. -/
def markMatch (k : List Char) : List Char :=
  match k with
  | [] => "undefined<wbr/>".data
  | c :: rest => c :: ("<wbr/>".data ++ rest)

/-- Global scan of `source.replace(regex, callback)` for the alternation
regex `\b(k1|k2|...)/g`: at each position preceded by a word boundary the
first matching alternative is replaced; after an empty match the engine
advances one character (emitting it unchanged); a trailing empty match fires
when the string ends after a word character. -/
def replaceDefineAux (alts : List (List Char)) :
    Nat → Bool → List Char → List Char
  | 0, _, rest => rest
  | _ + 1, prevW, [] =>
    if prevW then
      match firstAlt alts [] with
      | some k => markMatch k
      | none => []
    else []
  | fuel + 1, prevW, c :: cs =>
    if prevW != isWordChar c then
      match firstAlt alts (c :: cs) with
      | some [] => markMatch [] ++ (c :: replaceDefineAux alts fuel (isWordChar c) cs)
      | some (k0 :: ks) =>
        markMatch (k0 :: ks) ++
          replaceDefineAux alts fuel (isWordChar (ks.getLastD k0))
            ((c :: cs).drop (k0 :: ks).length)
      | none => c :: replaceDefineAux alts fuel (isWordChar c) cs
    else c :: replaceDefineAux alts fuel (isWordChar c) cs

def replaceDefineKeys (keys : List String) (source : String) : String :=
  String.mk (replaceDefineAux (defineAlternatives keys)
    (source.data.length + 1) false source.data)

/-- Embedding of `preventViteConstantsReplacement`.  `define` carries the
keys of the optional `define` record in `Object.keys` order (`none` models
an absent argument; the values are never read).  The source first rewrites
every word-boundary-anchored occurrence of the literal `import.meta` to
`import.<wbr/>meta` and of `process.env` to `process.<wbr/>env` (the
regexes escape the dots, so both are literal), then, when `define` is
present, applies the key alternation with the marker-inserting callback. -/
def preventViteConstantsReplacement (source : String)
    (define : Option (List String)) : String :=
  let s1 := replaceBoundaryLiteral "import.meta" "import.<wbr/>meta" source
  let s2 := replaceBoundaryLiteral "process.env" "process.<wbr/>env" s1
  match define with
  | none => s2
  | some keys => replaceDefineKeys keys s2

/-- Remove every occurrence of the marker `<wbr/>`, scanning left to
right: used to state that an output is the input with only markers
inserted. -/
def stripMarkersAux : Nat → List Char → List Char
  | 0, rest => rest
  | _ + 1, [] => []
  | fuel + 1, c :: cs =>
    if beginsWith "<wbr/>".data (c :: cs) then
      stripMarkersAux fuel ((c :: cs).drop 6)
    else c :: stripMarkersAux fuel cs

def stripMarkers (s : String) : String :=
  String.mk (stripMarkersAux (s.data.length + 1) s.data)

/-- Spec-side description for the empty-`define` behaviour: the text `ins`
inserted at every word-boundary position of `s`. -/
def insertBoundariesAux (ins : List Char) : Bool → List Char → List Char
  | prevW, [] => if prevW then ins else []
  | prevW, c :: cs =>
    if prevW != isWordChar c then
      ins ++ (c :: insertBoundariesAux ins (isWordChar c) cs)
    else c :: insertBoundariesAux ins (isWordChar c) cs

def insertAtWordBoundaries (ins : String) (s : String) : String :=
  String.mk (insertBoundariesAux ins.data false s.data)

/-! ### Derived views of a header forest -/

mutual

/-- A header together with all its descendants, in preorder. -/
def flattenHeader : MarkdownHeader → List MarkdownHeader
  | .mk l t s cs => .mk l t s cs :: flattenForest cs

/-- All headers of a forest, in preorder. -/
def flattenForest : List MarkdownHeader → List MarkdownHeader
  | [] => []
  | c :: cs => flattenHeader c ++ flattenForest cs

end

mutual

/-- Every child (recursively) has a strictly greater level than its
parent. -/
def nestedB : MarkdownHeader → Bool
  | .mk l _ _ cs => nestedForestB l cs

def nestedForestB : Int → List MarkdownHeader → Bool
  | _, [] => true
  | l, c :: cs => (decide (l < c.level) && nestedB c) && nestedForestB l cs

end

/-! ### Spec-side rendering of the title extractor (spec §4.2) -/

def specAllowedTypes (allowHtml : Bool) : List String :=
  if allowHtml then ["text", "emoji", "code_inline", "html_inline"]
  else ["text", "emoji", "code_inline"]

def specChildText (escapeText : Bool) (item : ChildToken) : String :=
  if escapeText && (item.type == "text" || item.type == "code_inline") then
    htmlEscape item.content
  else item.content

/-- Title extraction as spec §4.2 words it: filter the children through the
allow-list and the decoration flag, render each one (escaping text and
inline code when requested), concatenate, trim. -/
def specExtractTitle (token : Token) (allowHtml escapeText : Bool) : String :=
  jsTrim (String.join (((token.children.getD []).filter (fun item =>
    (specAllowedTypes allowHtml).contains item.type &&
      !item.isPermalinkSymbol)).map (specChildText escapeText)))

/-! ### Linearization of the builder state

`linKeys` lists the scalar fields of every header reachable from a
`(headers, stack)` state, in the order the headers were captured; it is the
device used to prove that the final tree enumerates the captured headers in
document order. -/

def forestKeys (f : List MarkdownHeader) : List (Int × String × String) :=
  (flattenForest f).map headerKey

def stackKeys : List MarkdownHeader → List (Int × String × String)
  | [] => []
  | e :: rest => stackKeys rest ++ (headerKey e :: forestKeys e.children)

def linKeys (st : List MarkdownHeader × List MarkdownHeader) :
    List (Int × String × String) :=
  forestKeys st.1 ++ stackKeys st.2

/-- Whether the front entry of a stack (if any) has level below `l`. -/
def levelLtHead (l : Int) : List MarkdownHeader → Bool
  | [] => true
  | p :: _ => decide (p.level < l)

/-- Well-formedness of the pending stack: every entry satisfies the nesting
invariant and levels strictly decrease from the front (innermost) entry
outwards. -/
def stackOKB : List MarkdownHeader → Bool
  | [] => true
  | e :: rest => nestedB e && levelLtHead e.level rest && stackOKB rest

/-! ### Concrete example inputs -/

/-- A `heading_open` token with the given tag and no `id` attribute. -/
def hOpen (tag : String) : Token := ⟨"heading_open", tag, none, none⟩

/-- An `inline` token holding a single text child. -/
def hInline (s : String) : Token := ⟨"inline", "", none, some [⟨"text", s, false⟩]⟩

def hClose (tag : String) : Token := ⟨"heading_close", tag, none, none⟩

/-- Token stream of a document with headings A(h1), B(h2), C(h4), D(h2). -/
def exToks : List Token :=
  [hOpen "h1", hInline "A", hClose "h1",
   hOpen "h2", hInline "B", hClose "h2",
   hOpen "h4", hInline "C", hClose "h4",
   hOpen "h2", hInline "D", hClose "h2"]

def exOpts : ResolveOptions :=
  { level := [1, 2, 3, 4, 5, 6], allowHtml := false, escapeText := false,
    slugify := slugify, format := none }

def exC : MarkdownHeader := .mk 4 "C" "c" []

def exB : MarkdownHeader := .mk 2 "B" "b" [exC]

def exD : MarkdownHeader := .mk 2 "D" "d" []

def exRoot : MarkdownHeader := .mk 1 "A" "a" [exB, exD]

/-- Expected tree: B and D are siblings under A in document order, and the
level-4 heading C sits directly under the level-2 heading B. -/
def exTree : List MarkdownHeader := [exRoot]

/-- The amended-claim rendering of the guard (C8): word-boundary-anchored
occurrences of the two dotted identifiers get the marker spliced in before
their final dotted segment (not after the first character), and
word-boundary-anchored occurrences of the mapping keys (with no trailing
whole-word check) get it after their first character. -/
def specGuardConstantsAmended (source : String)
    (define : Option (List String)) : String :=
  let s1 := replaceBoundaryLiteral "import.meta"
    ("import." ++ "<wbr/>" ++ "meta") source
  let s2 := replaceBoundaryLiteral "process.env"
    ("process." ++ "<wbr/>" ++ "env") s1
  match define with
  | none => s2
  | some keys => replaceDefineKeys keys s2

/-! ## Theorems -/

/-! ### Helper lemmas about `captureOne` and the stack -/

theorem captureOne_none_next (opts : ResolveOptions) (t : Token) :
    captureOne opts t none = none := by
  unfold captureOne
  split
  · rfl
  · cases jsParseInt (t.tag.drop 1) with
    | none => rfl
    | some l =>
      dsimp only
      split <;> rfl

/-- C7: a heading-opening token with no subsequent token is silently
skipped: the iteration step leaves the `(headers, stack)` state untouched,
and on the one-token stream the builder returns the empty forest (the
embedding is a total function, so no exception can arise). -/
theorem trailing_heading_open_skipped :
    (∀ (opts : ResolveOptions) (t : Token)
        (st : List MarkdownHeader × List MarkdownHeader),
      t.type = "heading_open" → stepToken opts t none st = st) ∧
    (∀ (opts : ResolveOptions) (t : Token), t.type = "heading_open" →
      resolveHeadersFromTokens [t] opts = []) := by
  constructor
  · intro opts t st _
    simp [stepToken, captureOne_none_next]
  · intro opts t _
    simp [resolveHeadersFromTokens, resolveAux, stepToken,
      captureOne_none_next, collapse]

/-- Witness for C7 at a concrete `h1` opening token. -/
theorem trailing_heading_open_skipped_witness :
    stepToken exOpts (hOpen "h1") none ([], []) = ([], []) ∧
    resolveHeadersFromTokens [hOpen "h1"] exOpts = [] :=
  ⟨trailing_heading_open_skipped.1 exOpts (hOpen "h1") ([], []) rfl,
   trailing_heading_open_skipped.2 exOpts (hOpen "h1") rfl⟩

/-! ### C6: slug determination and `format` timing -/

/-- C6: an explicit `id` attribute is used verbatim as the slug; otherwise
the slug is `slugify` of the extracted (unformatted) title; the stored title
is the `format` image of that same extracted title, so the slug never sees
`format`. -/
theorem header_slug_id_and_format (opts : ResolveOptions) (tok : Token)
    (lvl : Int) (next : Token) :
    (∀ v, tok.idAttr = some v → (mkHeader opts tok lvl next).slug = v) ∧
    (tok.idAttr = none →
      (mkHeader opts tok lvl next).slug =
        opts.slugify (resolveTitleFromToken next opts.allowHtml
          opts.escapeText)) ∧
    (mkHeader opts tok lvl next).title =
      (match opts.format with
       | some f => f (resolveTitleFromToken next opts.allowHtml
           opts.escapeText)
       | none => resolveTitleFromToken next opts.allowHtml
           opts.escapeText) := by
  refine ⟨fun v hv => ?_, fun hn => ?_, ?_⟩
  · simp [mkHeader, MarkdownHeader.slug, hv]
  · simp [mkHeader, MarkdownHeader.slug, hn]
  · simp [mkHeader, MarkdownHeader.title]

/-- Witness for C6: an explicit `id="custom"` wins over the title, and with
no attribute the slug comes from `slugify`. -/
theorem header_slug_id_and_format_witness :
    (mkHeader exOpts (Token.mk "heading_open" "h2" (some "custom") none) 2
      (hInline "Ti tle")).slug = "custom" ∧
    (mkHeader exOpts (hOpen "h2") 2 (hInline "Hello, World!")).slug =
      "hello-world" :=
  ⟨(header_slug_id_and_format exOpts
      (Token.mk "heading_open" "h2" (some "custom") none) 2
      (hInline "Ti tle")).1 "custom" rfl,
   ((header_slug_id_and_format exOpts (hOpen "h2") 2
      (hInline "Hello, World!")).2.1 rfl).trans rfl⟩

/-! ### C10: empty `id` attribute -/

/-- C10: when the opening token carries `id=""`, the emitted slug is the
empty string for every choice of the `slugify` callback — the fallback to
`slugify(title)` fires only on a null (absent) attribute, since `??` keeps
the empty string. -/
theorem mkHeader_empty_id_slug (opts : ResolveOptions) (token : Token)
    (lvl : Int) (next : Token) (h : token.idAttr = some "") :
    ∀ sl : String → String,
      (mkHeader { opts with slugify := sl } token lvl next).slug = "" := by
  intro sl
  simp [mkHeader, MarkdownHeader.slug, h]

/-- Witness for C10 at a concrete heading with `id=""` and a slugify
callback that never returns the empty string. -/
theorem mkHeader_empty_id_slug_witness :
    (mkHeader { exOpts with slugify := fun _ => "X" }
      (Token.mk "heading_open" "h1" (some "") none) 1 (hInline "T")).slug
      = "" :=
  mkHeader_empty_id_slug exOpts
    (Token.mk "heading_open" "h1" (some "") none) 1 (hInline "T") rfl
    (fun _ => "X")

/-! ### C3 and C4: the slugify pipeline -/

/-- Counterexample to C3 as stated: the code's `rSpecial` class contains the
left curly double quote U+201C (and the backtick and U+201D), which the
spec's listed class omits, so on the input `a“b` the code pipeline and the
spec-listed pipeline disagree. -/
theorem slugify_spec_class_counterexample :
    slugify "a“b" = "a-b" ∧ slugifySpecListed "a“b" = "a“b" ∧
    slugify "a“b" ≠ slugifySpecListed "a“b" :=
  ⟨rfl, rfl, by decide⟩

/-- C3 amended: slugify is exactly the spec's eight steps in order once the
step-4 class is amended to include the backtick and the curly double quotes
U+201C/U+201D (the code's `rSpecial` class). -/
theorem slugify_steps_amended :
    ∀ str : String, slugify str = slugifySpecAmended str :=
  fun _ => rfl

/-- Counterexample to C4 as stated: the em dash U+2014 is neither JavaScript
whitespace nor in the `rSpecial` class, so it survives slugification and the
claimed output `cafe-deja-vu` is not produced. -/
theorem slugify_emdash_counterexample :
    slugify "Café — Déjà Vu" ≠ "cafe-deja-vu" := by decide

/-- C4 amended: the actual result keeps the em dash between the hyphens that
replace the two spaces around it. -/
theorem slugify_emdash_amended :
    slugify "Café — Déjà Vu" = "cafe-—-deja-vu" := rfl

/-! ### C8: the constants guard -/

/-- Counterexample to C8 as stated: the claim would leave `FOOBAR` untouched
(there is no whole-word `FOO` occurrence) and would put the marker right
after the `i` of `import.meta`; the code instead replaces the word-start
`FOO` of `FOOBAR` and splices the marker after `import.`. -/
theorem guard_whole_word_counterexample :
    preventViteConstantsReplacement "import.meta FOOBAR" (some ["FOO"]) =
      "import.<wbr/>meta F<wbr/>OOBAR" ∧
    preventViteConstantsReplacement "import.meta FOOBAR" (some ["FOO"]) ≠
      "i<wbr/>mport.meta FOOBAR" :=
  ⟨rfl, by decide⟩

/-- C8 amended: the guard rewrites exactly the word-boundary-anchored
occurrences — of the dotted identifiers with the marker spliced before the
final segment, and of the keys with the marker after the first character and
no trailing whole-word check — and on the spec's own example input produces
the marker placements actually implemented. -/
theorem guard_boundary_amended :
    (∀ (source : String) (define : Option (List String)),
      preventViteConstantsReplacement source define =
        specGuardConstantsAmended source define) ∧
    preventViteConstantsReplacement "import.meta.env.FOO" (some ["FOO"]) =
      "import.<wbr/>meta.env.F<wbr/>OO" :=
  ⟨fun _ _ => rfl, rfl⟩

/-! ### C9: empty `define` corrupts the source -/

theorem firstAlt_empty_alt (cs : List Char) : firstAlt [[]] cs = some [] := by
  simp [firstAlt, List.find?, beginsWith]

theorem replaceDefineAux_empty_alts (cs : List Char) :
    ∀ (fuel : Nat) (prevW : Bool), cs.length < fuel →
      replaceDefineAux [[]] fuel prevW cs =
        insertBoundariesAux ("undefined<wbr/>".data) prevW cs := by
  induction cs with
  | nil =>
    intro fuel prevW hf
    match fuel, hf with
    | f + 1, _ =>
      cases prevW <;>
        simp [replaceDefineAux, insertBoundariesAux, firstAlt_empty_alt,
          markMatch]
  | cons c cs ih =>
    intro fuel prevW hf
    cases fuel with
    | zero => simp at hf
    | succ f =>
      have hlen : cs.length < f := by
        simp only [List.length_cons] at hf
        omega
      cases hb : prevW != isWordChar c <;>
        simp [replaceDefineAux, insertBoundariesAux, hb,
          firstAlt_empty_alt, markMatch, ih f (isWordChar c) hlen]

/-- C9: with a present-but-empty reserved-names mapping the alternation
degenerates to the empty pattern, and the guard splices the literal text
`undefined<wbr/>` at every word boundary: in general the keys pass coincides
with boundary insertion of that text, concretely `ab` becomes
`undefined<wbr/>abundefined<wbr/>`, which is not the source text with only
markers inserted (stripping the markers does not give back `ab`). -/
theorem guard_empty_define_corrupts :
    (∀ source : String, replaceDefineKeys [] source =
      insertAtWordBoundaries "undefined<wbr/>" source) ∧
    preventViteConstantsReplacement "ab" (some []) =
      "undefined<wbr/>abundefined<wbr/>" ∧
    stripMarkers (preventViteConstantsReplacement "ab" (some [])) ≠ "ab" := by
  refine ⟨fun source => ?_, rfl, by decide⟩
  simp only [replaceDefineKeys, insertAtWordBoundaries, defineAlternatives,
    List.isEmpty_nil, if_true]
  rw [replaceDefineAux_empty_alts source.data (source.data.length + 1) false
    (Nat.lt_succ_self _)]

/-! ### C5: title extraction -/

theorem string_join_cons (s : String) (l : List String) :
    String.join (s :: l) = s ++ String.join l := by
  simp [String.join_eq]
  rfl

theorem foldl_escape_join (eT : Bool) (l : List ChildToken) :
    ∀ init : String,
      l.foldl (fun result item =>
        if eT && (item.type == "code_inline" || item.type == "text") then
          result ++ htmlEscape item.content
        else result ++ item.content) init
      = init ++ String.join (l.map (specChildText eT)) := by
  induction l with
  | nil => intro init; simp [String.join]
  | cons i l ih =>
    intro init
    rw [List.foldl_cons, ih, List.map_cons, string_join_cons,
      ← String.append_assoc]
    congr 1
    cases eT <;> cases h1 : (i.type == "code_inline") <;>
      cases h2 : (i.type == "text") <;> simp [specChildText, h1, h2]

/-- C5: the extractor includes, in order, exactly the allow-listed children
that are not permalink decorations, escaping plain-text and inline-code
content exactly when `escapeText` is set while emoji and inline HTML stay
raw, and trims the concatenation — and the spec's worked example evaluates
as claimed. -/
theorem title_extraction_spec :
    (∀ (tok : Token) (aH eT : Bool),
      resolveTitleFromToken tok aH eT = specExtractTitle tok aH eT) ∧
    resolveTitleFromToken
      (Token.mk "inline" "" none
        (some [ChildToken.mk "text" "Intro " false,
               ChildToken.mk "code_inline" "<b>" false,
               ChildToken.mk "html_inline" "<i>x</i>" false])) true true
      = "Intro &lt;b&gt;<i>x</i>" := by
  constructor
  · intro tok aH eT
    have hTypes :
        (["text", "emoji", "code_inline"] ++
          (if aH then ["html_inline"] else [])) = specAllowedTypes aH := by
      cases aH <;> rfl
    simp only [resolveTitleFromToken, specExtractTitle, hTypes]
    congr 1
    rw [foldl_escape_join]
    simp
  · rfl

/-! ### Linearization lemmas for the header tree -/

theorem level_appendChild (p c : MarkdownHeader) :
    (appendChild p c).level = p.level := by cases p; rfl

theorem children_appendChild (p c : MarkdownHeader) :
    (appendChild p c).children = p.children ++ [c] := by cases p; rfl

theorem headerKey_appendChild (p c : MarkdownHeader) :
    headerKey (appendChild p c) = headerKey p := by cases p; rfl

theorem flattenHeader_def (h : MarkdownHeader) :
    flattenHeader h = h :: flattenForest h.children := by cases h; rfl

theorem flattenForest_append (xs ys : List MarkdownHeader) :
    flattenForest (xs ++ ys) = flattenForest xs ++ flattenForest ys := by
  induction xs with
  | nil => simp [flattenForest]
  | cons c cs ih => simp [flattenForest, ih]

theorem forestKeys_nil : forestKeys [] = [] := rfl

theorem forestKeys_cons (h : MarkdownHeader) (f : List MarkdownHeader) :
    forestKeys (h :: f) =
      headerKey h :: (forestKeys h.children ++ forestKeys f) := by
  simp [forestKeys, flattenForest, flattenHeader_def]

theorem forestKeys_append (xs ys : List MarkdownHeader) :
    forestKeys (xs ++ ys) = forestKeys xs ++ forestKeys ys := by
  simp [forestKeys, flattenForest_append]

theorem stackKeys_attach (p top : MarkdownHeader) (ps : List MarkdownHeader) :
    stackKeys (appendChild p top :: ps) = stackKeys (top :: p :: ps) := by
  simp [stackKeys, headerKey_appendChild, children_appendChild,
    forestKeys_append, forestKeys_cons, forestKeys_nil, List.append_assoc]

theorem collapseAux_keys (rest : List MarkdownHeader) :
    ∀ (top : MarkdownHeader) (headers : List MarkdownHeader),
      forestKeys (collapseAux headers top rest) =
        forestKeys headers ++ stackKeys (top :: rest) := by
  induction rest with
  | nil =>
    intro top headers
    simp [collapseAux, stackKeys, forestKeys_append, forestKeys_cons,
      forestKeys_nil]
  | cons p ps ih =>
    intro top headers
    simp only [collapseAux]
    rw [ih, stackKeys_attach]

theorem collapse_keys (headers stack : List MarkdownHeader) :
    forestKeys (collapse headers stack) = linKeys (headers, stack) := by
  cases stack with
  | nil => simp [collapse, linKeys, stackKeys]
  | cons top rest => simp [collapse, linKeys, collapseAux_keys]

theorem closeAux_lin (rest : List MarkdownHeader) :
    ∀ (top : MarkdownHeader) (headers : List MarkdownHeader) (lvl : Int),
      linKeys (closeAux lvl headers top rest) =
        forestKeys headers ++ stackKeys (top :: rest) := by
  induction rest with
  | nil =>
    intro top headers lvl
    by_cases h : lvl ≤ top.level <;>
      simp [closeAux, h, linKeys, stackKeys, forestKeys_append,
        forestKeys_cons, forestKeys_nil, List.append_assoc]
  | cons p ps ih =>
    intro top headers lvl
    by_cases h : lvl ≤ top.level
    · simp only [closeAux, if_pos h]
      rw [ih, stackKeys_attach]
    · simp [closeAux, h, linKeys]

theorem closeWhile_lin (lvl : Int) (headers stack : List MarkdownHeader) :
    linKeys (closeWhile lvl headers stack) = linKeys (headers, stack) := by
  cases stack with
  | nil => rfl
  | cons top rest =>
    simp only [closeWhile]
    exact closeAux_lin rest top headers lvl

theorem pushHeader_lin (h : MarkdownHeader)
    (st : List MarkdownHeader × List MarkdownHeader)
    (hc : h.children = []) :
    linKeys (pushHeader h st) = linKeys st ++ [headerKey h] := by
  have hcw := closeWhile_lin h.level st.1 st.2
  unfold pushHeader
  simp only [linKeys, stackKeys, hc, forestKeys_nil] at *
  rw [← List.append_assoc, hcw]

/-! ### Facts about `captureOne` -/

theorem captureOne_some (opts : ResolveOptions) (t : Token)
    (n : Option Token) (h : MarkdownHeader)
    (hc : captureOne opts t n = some h) :
    h.children = [] ∧ h.level ∈ opts.level := by
  unfold captureOne at hc
  split at hc
  · exact absurd hc (by simp)
  · cases hp : jsParseInt (t.tag.drop 1) with
    | none => rw [hp] at hc; exact absurd hc (by simp)
    | some l =>
      rw [hp] at hc
      dsimp only at hc
      split at hc
      · cases n with
        | none => exact absurd hc (by simp)
        | some nt =>
          simp only [Option.some.injEq] at hc
          subst hc
          exact ⟨rfl, by assumption⟩
      · exact absurd hc (by simp)

theorem resolveAux_lin (opts : ResolveOptions) (ts : List Token) :
    ∀ st, linKeys (resolveAux opts ts st) =
      linKeys st ++ (capturedHeaders opts ts).map headerKey := by
  induction ts with
  | nil => intro st; simp [resolveAux, capturedHeaders]
  | cons t rest ih =>
    intro st
    rw [show resolveAux opts (t :: rest) st =
      resolveAux opts rest (stepToken opts t rest.head? st) from rfl, ih]
    rw [show capturedHeaders opts (t :: rest) =
      (match captureOne opts t rest.head? with
       | some h => h :: capturedHeaders opts rest
       | none => capturedHeaders opts rest) from rfl]
    unfold stepToken
    cases hc : captureOne opts t rest.head? with
    | none => simp
    | some h =>
      dsimp only
      rw [pushHeader_lin h st (captureOne_some opts t rest.head? h hc).1]
      simp [List.append_assoc]

/-- Document-order enumeration: flattening the final tree in preorder lists
the scalar fields of exactly the captured headers, in capture order. -/
theorem resolve_forestKeys (toks : List Token) (opts : ResolveOptions) :
    forestKeys (resolveHeadersFromTokens toks opts) =
      (capturedHeaders opts toks).map headerKey := by
  unfold resolveHeadersFromTokens
  rw [collapse_keys, resolveAux_lin]
  rfl

theorem capturedHeaders_level (opts : ResolveOptions) (ts : List Token) :
    ∀ h ∈ capturedHeaders opts ts, h.level ∈ opts.level := by
  induction ts with
  | nil => simp [capturedHeaders]
  | cons t rest ih =>
    intro h hh
    unfold capturedHeaders at hh
    revert hh
    cases hc : captureOne opts t rest.head? with
    | none => exact fun hh => ih h hh
    | some h0 =>
      dsimp only
      intro hh
      rcases List.mem_cons.mp hh with h1 | h2
      · subst h1; exact (captureOne_some _ _ _ _ hc).2
      · exact ih h h2

/-! ### Nesting invariant -/

theorem nestedForestB_append (l : Int) (xs ys : List MarkdownHeader) :
    nestedForestB l (xs ++ ys) =
      (nestedForestB l xs && nestedForestB l ys) := by
  induction xs with
  | nil => simp [nestedForestB]
  | cons c cs ih => simp [nestedForestB, ih, Bool.and_assoc]

theorem nestedB_children_nil (h : MarkdownHeader) (hc : h.children = []) :
    nestedB h = true := by
  cases h with
  | mk l t s cs =>
    simp only [MarkdownHeader.children] at hc
    subst hc
    rfl

theorem nestedB_appendChild (p c : MarkdownHeader) (hp : nestedB p = true)
    (hl : p.level < c.level) (hc : nestedB c = true) :
    nestedB (appendChild p c) = true := by
  cases p with
  | mk l t s cs =>
    simp only [appendChild, MarkdownHeader.level, MarkdownHeader.title,
      MarkdownHeader.slug, MarkdownHeader.children] at *
    simp only [nestedB, nestedForestB_append, nestedForestB,
      Bool.and_eq_true, decide_eq_true_iff] at *
    exact ⟨hp, ⟨hl, hc⟩, trivial⟩

theorem closeAux_inv (rest : List MarkdownHeader) :
    ∀ (lvl : Int) (headers : List MarkdownHeader) (top : MarkdownHeader),
      (∀ x ∈ headers, nestedB x = true) → stackOKB (top :: rest) = true →
      (∀ x ∈ (closeAux lvl headers top rest).1, nestedB x = true) ∧
      stackOKB (closeAux lvl headers top rest).2 = true ∧
      levelLtHead lvl (closeAux lvl headers top rest).2 = true := by
  induction rest with
  | nil =>
    intro lvl headers top hh hs
    have htop : nestedB top = true := by
      simp [stackOKB, levelLtHead] at hs
      exact hs
    by_cases h : lvl ≤ top.level
    · simp only [closeAux, if_pos h]
      refine ⟨?_, rfl, rfl⟩
      intro x hx
      rcases List.mem_append.mp hx with h1 | h2
      · exact hh x h1
      · rcases List.mem_singleton.mp h2 with rfl
        exact htop
    · simp only [closeAux, if_neg h]
      refine ⟨hh, ?_, ?_⟩
      · simp [stackOKB, levelLtHead, htop]
      · simp only [levelLtHead, decide_eq_true_iff]
        omega
  | cons p ps ih =>
    intro lvl headers top hh hs
    simp only [stackOKB, levelLtHead, Bool.and_eq_true,
      decide_eq_true_iff] at hs
    obtain ⟨⟨htop, hlt⟩, hrest⟩ := hs
    by_cases h : lvl ≤ top.level
    · simp only [closeAux, if_pos h]
      apply ih lvl headers (appendChild p top) hh
      have hokrest := hrest
      simp only [stackOKB, Bool.and_eq_true] at hokrest
      obtain ⟨⟨hp, hlh⟩, hps⟩ := hokrest
      have hap : nestedB (appendChild p top) = true :=
        nestedB_appendChild p top hp hlt htop
      simp only [stackOKB, Bool.and_eq_true]
      refine ⟨⟨hap, ?_⟩, hps⟩
      rw [level_appendChild]
      exact hlh
    · simp only [closeAux, if_neg h]
      refine ⟨hh, ?_, ?_⟩
      · simp only [stackOKB, levelLtHead, Bool.and_eq_true,
          decide_eq_true_iff]
        exact ⟨⟨htop, hlt⟩, hrest⟩
      · simp only [levelLtHead, decide_eq_true_iff]
        omega

theorem closeWhile_inv (lvl : Int) (headers stack : List MarkdownHeader)
    (hh : ∀ x ∈ headers, nestedB x = true) (hs : stackOKB stack = true) :
    (∀ x ∈ (closeWhile lvl headers stack).1, nestedB x = true) ∧
    stackOKB (closeWhile lvl headers stack).2 = true ∧
    levelLtHead lvl (closeWhile lvl headers stack).2 = true := by
  cases stack with
  | nil => exact ⟨hh, rfl, rfl⟩
  | cons top rest => exact closeAux_inv rest lvl headers top hh hs

theorem pushHeader_inv (h : MarkdownHeader)
    (st : List MarkdownHeader × List MarkdownHeader)
    (hh : ∀ x ∈ st.1, nestedB x = true) (hs : stackOKB st.2 = true)
    (hc : h.children = []) :
    (∀ x ∈ (pushHeader h st).1, nestedB x = true) ∧
    stackOKB (pushHeader h st).2 = true := by
  obtain ⟨a, b, c⟩ := closeWhile_inv h.level st.1 st.2 hh hs
  refine ⟨a, ?_⟩
  simp [stackOKB, nestedB_children_nil h hc, b, c]

theorem resolveAux_inv (opts : ResolveOptions) (ts : List Token) :
    ∀ st, (∀ x ∈ st.1, nestedB x = true) → stackOKB st.2 = true →
      (∀ x ∈ (resolveAux opts ts st).1, nestedB x = true) ∧
      stackOKB (resolveAux opts ts st).2 = true := by
  induction ts with
  | nil => intro st hh hs; exact ⟨hh, hs⟩
  | cons t rest ih =>
    intro st hh hs
    rw [show resolveAux opts (t :: rest) st =
      resolveAux opts rest (stepToken opts t rest.head? st) from rfl]
    apply ih
    all_goals
      unfold stepToken
      cases hc : captureOne opts t rest.head? with
      | none => first | exact hh | exact hs
      | some h =>
        have := pushHeader_inv h st hh hs (captureOne_some _ _ _ _ hc).1
        first | exact this.1 | exact this.2

theorem collapseAux_nested (rest : List MarkdownHeader) :
    ∀ (headers : List MarkdownHeader) (top : MarkdownHeader),
      (∀ x ∈ headers, nestedB x = true) → stackOKB (top :: rest) = true →
      ∀ x ∈ collapseAux headers top rest, nestedB x = true := by
  induction rest with
  | nil =>
    intro headers top hh hs
    have htop : nestedB top = true := by
      simp [stackOKB, levelLtHead] at hs
      exact hs
    intro x hx
    simp only [collapseAux] at hx
    rcases List.mem_append.mp hx with h1 | h2
    · exact hh x h1
    · rcases List.mem_singleton.mp h2 with rfl
      exact htop
  | cons p ps ih =>
    intro headers top hh hs
    simp only [stackOKB, levelLtHead, Bool.and_eq_true,
      decide_eq_true_iff] at hs
    obtain ⟨⟨htop, hlt⟩, hrest⟩ := hs
    simp only [collapseAux]
    apply ih headers (appendChild p top) hh
    have hokrest := hrest
    simp only [stackOKB, Bool.and_eq_true] at hokrest
    obtain ⟨⟨hp, hlh⟩, hps⟩ := hokrest
    have hap : nestedB (appendChild p top) = true :=
      nestedB_appendChild p top hp hlt htop
    simp only [stackOKB, Bool.and_eq_true]
    refine ⟨⟨hap, ?_⟩, hps⟩
    rw [level_appendChild]
    exact hlh

theorem resolve_nested (toks : List Token) (opts : ResolveOptions) :
    ∀ x ∈ resolveHeadersFromTokens toks opts, nestedB x = true := by
  obtain ⟨a, b⟩ := resolveAux_inv opts toks ([], []) (by simp) rfl
  rw [show resolveHeadersFromTokens toks opts =
    collapse (resolveAux opts toks ([], [])).1
      (resolveAux opts toks ([], [])).2 from rfl]
  generalize hH : (resolveAux opts toks ([], [])).1 = H at a
  generalize hS : (resolveAux opts toks ([], [])).2 = S at b
  cases S with
  | nil => simpa [collapse] using a
  | cons top rest => exact collapseAux_nested rest H top a b

theorem nestedForestB_mem_level (l : Int) (f : List MarkdownHeader)
    (hf : nestedForestB l f = true) : ∀ c ∈ f, l < c.level := by
  induction f with
  | nil => simp
  | cons c cs ih =>
    simp only [nestedForestB, Bool.and_eq_true, decide_eq_true_iff] at hf
    intro d hd
    rcases List.mem_cons.mp hd with rfl | h
    · exact hf.1.1
    · exact ih hf.2 d h

theorem nestedForestB_mem_nested (l : Int) (f : List MarkdownHeader)
    (hf : nestedForestB l f = true) : ∀ c ∈ f, nestedB c = true := by
  induction f with
  | nil => simp
  | cons c cs ih =>
    simp only [nestedForestB, Bool.and_eq_true, decide_eq_true_iff] at hf
    intro d hd
    rcases List.mem_cons.mp hd with rfl | h
    · exact hf.1.2
    · exact ih hf.2 d h

mutual

theorem mem_flattenHeader_nested : ∀ (h : MarkdownHeader),
    nestedB h = true → ∀ x ∈ flattenHeader h, nestedB x = true
  | .mk l t s cs, hn, x, hx => by
    simp only [flattenHeader] at hx
    rcases List.mem_cons.mp hx with h1 | h2
    · subst h1; exact hn
    · exact mem_flattenForest_nested cs
        (nestedForestB_mem_nested l cs (by simpa [nestedB] using hn)) x h2

theorem mem_flattenForest_nested : ∀ (f : List MarkdownHeader),
    (∀ y ∈ f, nestedB y = true) → ∀ x ∈ flattenForest f, nestedB x = true
  | [], _, x, hx => by simp [flattenForest] at hx
  | c :: cs, hf, x, hx => by
    simp only [flattenForest] at hx
    rcases List.mem_append.mp hx with h1 | h2
    · exact mem_flattenHeader_nested c (hf c (List.Mem.head _)) x h1
    · exact mem_flattenForest_nested cs
        (fun y hy => hf y (List.Mem.tail _ hy)) x h2

end

theorem nestedB_children_lt (h : MarkdownHeader) (hn : nestedB h = true) :
    ∀ c ∈ h.children, h.level < c.level := by
  cases h with
  | mk l t s cs =>
    intro c hc
    exact nestedForestB_mem_level l cs (by simpa [nestedB] using hn) c
      (by simpa [MarkdownHeader.children] using hc)

/-! ### C1 and C2 -/

/-- C1: flattening the built tree in preorder enumerates exactly the headers
captured from the token stream, in document order (so siblings keep document
order and no placeholder nodes are created); every child sits under a parent
of strictly smaller level (the nearest shallower open ancestor, levels may
be skipped); and on the concrete stream h1 A, h2 B, h4 C, h2 D the level-4
heading C nests directly under the level-2 heading B while B and D are
siblings under A, in order. -/
theorem header_tree_order_and_nesting :
    (∀ (toks : List Token) (opts : ResolveOptions),
      forestKeys (resolveHeadersFromTokens toks opts) =
        (capturedHeaders opts toks).map headerKey) ∧
    (∀ (toks : List Token) (opts : ResolveOptions) (h : MarkdownHeader),
      h ∈ flattenForest (resolveHeadersFromTokens toks opts) →
      ∀ c ∈ h.children, h.level < c.level) ∧
    resolveHeadersFromTokens exToks exOpts = exTree := by
  refine ⟨resolve_forestKeys, ?_, rfl⟩
  intro toks opts h hh c hc
  exact nestedB_children_lt h
    (mem_flattenForest_nested _ (resolve_nested toks opts) h hh) c hc

/-- Witness for C1: on the concrete stream, the level-1 root A sits strictly
above its child B. -/
theorem header_tree_order_and_nesting_witness :
    exRoot.level < exB.level :=
  header_tree_order_and_nesting.2.1 exToks exOpts exRoot (List.Mem.head _)
    exB (List.Mem.head _)

/-- C2: every header anywhere in the returned tree has its level in the
caller-supplied `level` set, and a heading token whose parsed level is
outside the set leaves the `(headers, stack)` state untouched. -/
theorem level_filter_invariant :
    (∀ (toks : List Token) (opts : ResolveOptions) (h : MarkdownHeader),
      h ∈ flattenForest (resolveHeadersFromTokens toks opts) →
        h.level ∈ opts.level) ∧
    (∀ (opts : ResolveOptions) (t : Token) (next? : Option Token)
        (st : List MarkdownHeader × List MarkdownHeader) (l : Int),
      t.type = "heading_open" → jsParseInt (t.tag.drop 1) = some l →
        l ∉ opts.level → stepToken opts t next? st = st) := by
  constructor
  · intro toks opts h hh
    have hk : headerKey h ∈ forestKeys (resolveHeadersFromTokens toks opts) :=
      List.mem_map_of_mem _ hh
    rw [resolve_forestKeys] at hk
    rcases List.mem_map.mp hk with ⟨h', hmem, hkey⟩
    have hlev : h'.level = h.level := congrArg Prod.fst hkey
    rw [← hlev]
    exact capturedHeaders_level opts toks h' hmem
  · intro opts t next? st l ht hp hmem
    simp [stepToken, captureOne, ht, hp, hmem]

/-- Witness for C2: the level-1 root of the concrete tree is in the
requested set, and a level-7 heading token leaves the state unchanged. -/
theorem level_filter_invariant_witness :
    exRoot.level ∈ exOpts.level ∧
    stepToken exOpts (hOpen "h7") none ([], []) = ([], []) :=
  ⟨level_filter_invariant.1 exToks exOpts exRoot (List.Mem.head _),
   level_filter_invariant.2 exOpts (hOpen "h7") none ([], []) 7 rfl rfl
     (by decide)⟩
